import Mathlib

/-!
Shallow embedding of the core of the fpl-mcp-server repository
(src/fpl_server/state.py, cache.py and the resolver consumers in
mcp_tools.py): the player-name resolver and its index construction,
the TTL data cache, the login-session state machine, and the
disambiguation decisions made by the MCP tool handlers.

Modelling conventions:
* Python dicts are insertion-ordered association lists; the helpers
  `alGet`, `alSet`, `alAdjust` mirror lookup, assignment and in-place
  update of one key.
* Python float scores are modelled as exact rationals; constants such
  as `0.9` are written `mkRat 9 10`.
* Wall-clock time is an explicit rational parameter measured in hours,
  so a TTL of `ttl` hours expires at `written + ttl`.
* Fallible Python code (code that can raise) is modelled in `Except
  Unit`; an uncaught exception is `.error ()`.
* `difflib.SequenceMatcher.ratio` is Python standard library code, not
  repository code; the resolver is parameterised over a `ratio`
  function, and theorems that need it assume only the documented bound
  `0 ≤ ratio a b ≤ 1`.
-/

/-- Python dict lookup (`d.get(k)` / `k in d`) on an insertion-ordered
association list. -/
def alGet {κ β : Type} [DecidableEq κ] : List (κ × β) → κ → Option β
  | [], _ => none
  | kv :: t, k => if kv.1 = k then some kv.2 else alGet t k

/-- Python dict assignment `d[k] = v`: overwrite in place keeping the key's
position, or append a new key at the end. -/
def alSet {κ β : Type} [DecidableEq κ] : List (κ × β) → κ → β → List (κ × β)
  | [], k, v => [(k, v)]
  | kv :: t, k, v => if kv.1 = k then (k, v) :: t else kv :: alSet t k v

/-- In-place update of one key when present; unchanged when absent
(models `if k in d: mutate d[k]`). -/
def alAdjust {κ β : Type} [DecidableEq κ] : List (κ × β) → κ → (β → β) → List (κ × β)
  | [], _, _ => []
  | kv :: t, k, f => if kv.1 = k then (kv.1, f kv.2) :: t else kv :: alAdjust t k f

/-- Accumulate the non-whitespace words of a character list, mirroring
Python's `str.split()` (split on whitespace runs, drop empty pieces).
The second argument is the reversed current word. -/
def wordsAux : List Char → List Char → List (List Char)
  | [], cur => if cur.isEmpty then [] else [cur.reverse]
  | c :: t, cur =>
    if c.isWhitespace then
      (if cur.isEmpty then wordsAux t [] else cur.reverse :: wordsAux t [])
    else wordsAux t (c :: cur)

/-- Interleave single spaces between words: Python's `" ".join(words)`. -/
def joinSpace : List (List Char) → List Char
  | [] => []
  | [w] => w
  | w :: v :: t => w ++ ' ' :: joinSpace (v :: t)

/-- `SessionStore._normalize_name`: lowercase, split on whitespace, re-join
with single spaces (`" ".join(name.lower().strip().split())`; the `strip`
is subsumed by `split()`). ASCII case folding, as in the data actually
indexed. -/
def normalize_name (s : String) : String :=
  String.mk (joinSpace (wordsAux (s.data.map Char.toLower) []))

/-- Substring containment on character lists. -/
def subListOf (xs : List Char) : List Char → Bool
  | [] => xs.isEmpty
  | y :: t => xs.isPrefixOf (y :: t) || subListOf xs t

/-- Python's `a in b` for strings: `a` occurs contiguously in `b` (the empty
string occurs in everything). -/
def strSubOf (a b : String) : Bool := subListOf a.data b.data

/-- The substring-tier similarity
`min(len(query), len(key)) / max(len(query), len(key))` as an exact
rational. (Python would divide by zero when both strings are empty; that
state is unreachable in the resolver because an empty query and an indexed
empty key exact-match first. Here `mkRat m 0 = 0`.) -/
def simRatio (a b : String) : ℚ :=
  mkRat (min a.length b.length) (max a.length b.length)

/-- `max(results.values())` for a nonempty results dict ( `0` on the empty
dict, where the code never calls it). -/
def maxScore : List (Nat × ℚ) → ℚ
  | [] => 0
  | p :: t => max p.2 (maxScore t)

/-- The guarded score update shared by the substring and fuzzy tiers:
`if player_id not in results or similarity > results[player_id]:
results[player_id] = similarity * scale`. The comparison uses the raw
similarity while the stored value is scaled — translated exactly as the
source has it. -/
def condUpdate (r : List (Nat × ℚ)) (pid : Nat) (sim scale : ℚ) : List (Nat × ℚ) :=
  match alGet r pid with
  | none => alSet r pid (sim * scale)
  | some old => if old < sim then alSet r pid (sim * scale) else r

/-- Tier 1 of `find_players_by_name`: exact key match, every mapped player
scores `1.0`. -/
def tier_exact (nm : List (String × List Nat)) (q : String) : List (Nat × ℚ) :=
  match alGet nm q with
  | none => []
  | some pids => pids.foldl (fun r pid => alSet r pid 1) []

/-- Tier 2 of `find_players_by_name`: substring containment, attempted only
when tier 1 produced nothing; score `similarity * 0.9`. -/
def tier_substring (nm : List (String × List Nat)) (q : String)
    (r0 : List (Nat × ℚ)) : List (Nat × ℚ) :=
  if r0 = [] then
    nm.foldl (fun r kp =>
      if strSubOf q kp.1 || strSubOf kp.1 q then
        kp.2.foldl (fun r2 pid => condUpdate r2 pid (simRatio q kp.1) (mkRat 9 10)) r
      else r) r0
  else r0

/-- Tier 3 of `find_players_by_name`: fuzzy matching over every indexed key,
attempted only when fuzzy matching is enabled and the earlier tiers produced
nothing or a best score below `0.7`; keys with `ratio ≥ 0.6` score
`ratio * 0.8`. -/
def tier_fuzzy (ratio : String → String → ℚ) (nm : List (String × List Nat))
    (q : String) (fuzzy : Bool) (r2 : List (Nat × ℚ)) : List (Nat × ℚ) :=
  if fuzzy = true ∧ (r2 = [] ∨ maxScore r2 < mkRat 7 10) then
    nm.foldl (fun r kp =>
      if mkRat 6 10 ≤ ratio q kp.1 then
        kp.2.foldl (fun r3 pid => condUpdate r3 pid (ratio q kp.1) (mkRat 8 10)) r
      else r) r2
  else r2

/-- `player_matches.sort(key=lambda x: x[1], reverse=True)`: Python's sort is
stable, and with `reverse=True` equal elements still keep their original
order; a stable insertion sort by descending score computes the same list. -/
def sortDesc (l : List (Nat × ℚ)) : List (Nat × ℚ) :=
  List.insertionSort (fun a b => b.2 ≤ a.2) l

/-- The `(player_id, score)` content of `find_players_by_name` before the
final sort: the three tiers run on the normalized query. -/
def preScores (ratio : String → String → ℚ) (nm : List (String × List Nat))
    (q : String) (fuzzy : Bool) : List (Nat × ℚ) :=
  tier_fuzzy ratio nm (normalize_name q) fuzzy
    (tier_substring nm (normalize_name q) (tier_exact nm (normalize_name q)))

/-- The `(player_id, score)` list returned by
`SessionStore.find_players_by_name`, sorted by descending score. -/
def resolveScores (ratio : String → String → ℚ) (nm : List (String × List Nat))
    (q : String) (fuzzy : Bool) : List (Nat × ℚ) :=
  sortDesc (preScores ratio nm q fuzzy)

/-- A player record (`models.ElementData`) restricted to the fields the
index construction and resolver read; the remaining payload fields do not
influence any claim. `team_name` and `position` are the derived fields
stamped on by `_build_player_indices`. -/
structure ElementData where
  id : Nat
  web_name : String
  first_name : String
  second_name : String
  team : Nat
  element_type : Nat
  team_name : String
  position : String
deriving DecidableEq

/-- A team record restricted to the fields read by the index construction. -/
structure TeamData where
  id : Nat
  name : String
deriving DecidableEq

/-- A position record (`element_types` entry) restricted to the fields read
by the index construction. -/
structure ElementTypeData where
  id : Nat
  singular_name_short : String
deriving DecidableEq

/-- The bootstrap payload as consumed by `_build_player_indices`. -/
structure BootstrapData where
  elements : List ElementData
  teams : List TeamData
  element_types : List ElementTypeData
deriving DecidableEq

/-- The two indices built by `_build_player_indices`. -/
structure Indices where
  nameMap : List (String × List Nat)
  idMap : List (Nat × ElementData)
deriving DecidableEq

/-- Register `pid` under `key`: create the key with an empty list when
missing, then append unconditionally (index key 1, the web name). -/
def nameMapAppend (nm : List (String × List Nat)) (key : String) (pid : Nat) :
    List (String × List Nat) :=
  match alGet nm key with
  | none => nm ++ [(key, [pid])]
  | some l => alSet nm key (l ++ [pid])

/-- Register `pid` under `key` only when not already present (index keys
2–4: full name, surname, first+web name). -/
def nameMapAppendNew (nm : List (String × List Nat)) (key : String) (pid : Nat) :
    List (String × List Nat) :=
  match alGet nm key with
  | none => nm ++ [(key, [pid])]
  | some l => if pid ∈ l then nm else alSet nm key (l ++ [pid])

/-- One iteration of the element loop of `_build_player_indices`: enrich the
element with `team_name` and `position`, store it in the id map, and
register its up-to-four normalized name keys. -/
def indexElement (team_map : List (Nat × String)) (position_map : List (Nat × String))
    (ix : Indices) (e : ElementData) : Indices :=
  Indices.mk
    (let m1 := nameMapAppend ix.nameMap (normalize_name e.web_name) e.id
     let m2 := nameMapAppendNew m1
       (normalize_name (e.first_name ++ " " ++ e.second_name)) e.id
     let m3 := nameMapAppendNew m2 (normalize_name e.second_name) e.id
     if e.first_name ≠ "" ∧ e.web_name ≠ e.second_name then
       nameMapAppendNew m3 (normalize_name (e.first_name ++ " " ++ e.web_name)) e.id
     else m3)
    (alSet ix.idMap e.id
      (ElementData.mk e.id e.web_name e.first_name e.second_name e.team e.element_type
        ((alGet team_map e.team).getD "Unknown")
        ((alGet position_map e.element_type).getD "UNK")))

/-- `SessionStore._build_player_indices`: clear both maps, build the team
and position name maps (dict comprehensions, later duplicate ids win), then
index every element in order. -/
def build_player_indices (bs : BootstrapData) : Indices :=
  bs.elements.foldl
    (indexElement
      (bs.teams.foldl (fun m t => alSet m t.id t.name) [])
      (bs.element_types.foldl (fun m t => alSet m t.id t.singular_name_short) []))
    (Indices.mk [] [])

/-- `SessionStore.find_players_by_name`: the empty list when no bootstrap
data is loaded; otherwise the tier scores on the normalized query, sorted
by descending score, with each player id resolved through the id map
(`player_id_map[player_id]`; the lookup is modelled totally by dropping a
missing id — on a built index it never misses, see the index invariants). -/
def find_players_by_name (ratio : String → String → ℚ)
    (bootstrap_data : Option BootstrapData) (ix : Indices) (q : String)
    (fuzzy : Bool) : List (ElementData × ℚ) :=
  match bootstrap_data with
  | none => []
  | some _ =>
    (resolveScores ratio ix.nameMap q fuzzy).filterMap
      (fun p => (alGet ix.idMap p.1).map (fun e => (e, p.2)))

/-- A pending login request (`state.PendingLogin`). -/
structure PendingLogin where
  created_at : ℚ
  status : String
  session_id : Option String
  error : Option String
deriving DecidableEq

/-- The mutable login state of `SessionStore`: the pending-login map and the
set of active session ids (the authenticated client handles attached to them
are external collaborators and carry no state the claims read). -/
structure SessionStore where
  pending_logins : List (String × PendingLogin)
  active_sessions : List String
deriving DecidableEq

/-- `SessionStore.create_login_request`: store a fresh pending record under
the request id (a repeated id is overwritten, as Python dict assignment
does). -/
def create_login_request (st : SessionStore) (request_id : String) (now : ℚ) :
    SessionStore :=
  SessionStore.mk
    (alSet st.pending_logins request_id (PendingLogin.mk now "pending" none none))
    st.active_sessions

/-- `SessionStore.set_login_success`: register the session id, then — when
the request id is known — set status `"success"` and record the session id.
(The `client.get_me()` call mutates only the external client handle.) -/
def set_login_success (st : SessionStore) (request_id session_id : String) :
    SessionStore :=
  SessionStore.mk
    (alAdjust st.pending_logins request_id
      (fun pl => PendingLogin.mk pl.created_at "success" (some session_id) pl.error))
    (if session_id ∈ st.active_sessions then st.active_sessions
     else st.active_sessions ++ [session_id])

/-- `SessionStore.set_login_failure`: when the request id is known, set
status `"failed"` and record the error string. -/
def set_login_failure (st : SessionStore) (request_id error : String) :
    SessionStore :=
  SessionStore.mk
    (alAdjust st.pending_logins request_id
      (fun pl => PendingLogin.mk pl.created_at "failed" pl.session_id (some error)))
    st.active_sessions

/-- A cache file on disk: present with a JSON-parseable payload, or present
but unparseable (`json.load` / model validation raises). -/
inductive FileContent (α : Type) where
  | ok (a : α)
  | corrupt
deriving DecidableEq

/-- `cache.CacheMetadata` after model validation: `ttl_hours`, and
`last_updated`, an ISO timestamp string that either parses to a time
(`some t`) or is rejected by `datetime.fromisoformat` (`none`; any string
passes validation of the model, which only requires `str`). -/
structure CacheMetadata where
  last_updated : Option ℚ
  ttl_hours : ℚ
deriving DecidableEq

/-- The on-disk state of one `DataCache` directory: for each cache key, the
data file and the sibling `<key>.meta.json` metadata file (`none` = file
absent). -/
structure CacheFS (α : Type) where
  dataF : String → Option (FileContent α)
  metaF : String → Option (FileContent CacheMetadata)

/-- The empty cache directory: no key was ever written. -/
def emptyCacheFS (α : Type) : CacheFS α :=
  CacheFS.mk (fun _ => none) (fun _ => none)

/-- `DataCache._read_metadata`: `None` when the metadata file is missing or
fails to parse/validate, otherwise the metadata record. -/
def read_metadata {α : Type} (fs : CacheFS α) (key : String) : Option CacheMetadata :=
  match fs.metaF key with
  | none => none
  | some FileContent.corrupt => none
  | some (FileContent.ok m) => some m

/-- `CacheMetadata.is_expired` at wall-clock time `now`:
`datetime.fromisoformat(self.last_updated)` raises when the stored string is
not an ISO timestamp; otherwise the cache is expired when `now` is strictly
past `last_updated + ttl_hours`. -/
def meta_is_expired (m : CacheMetadata) (now : ℚ) : Except Unit Bool :=
  match m.last_updated with
  | none => Except.error ()
  | some t => Except.ok (decide (t + m.ttl_hours < now))

/-- `DataCache.is_expired`: true when the data file is missing or the
metadata is missing/unparseable; otherwise defer to the metadata (whose
timestamp parse may raise). -/
def cache_is_expired {α : Type} (fs : CacheFS α) (key : String) (now : ℚ) :
    Except Unit Bool :=
  match fs.dataF key with
  | none => Except.ok true
  | some _ =>
    match read_metadata fs key with
    | none => Except.ok true
    | some m => meta_is_expired m now

/-- Reading the data file in `DataCache.get`: `None` when missing or
unparseable, the payload otherwise. -/
def readDataFile {α : Type} (fs : CacheFS α) (key : String) : Option α :=
  match fs.dataF key with
  | none => none
  | some FileContent.corrupt => none
  | some (FileContent.ok d) => some d

/-- `DataCache.get`: absent when (unless `ignore_expiry`) the entry is
expired, otherwise the data file's payload; the expiry check may raise. -/
def cache_get {α : Type} (fs : CacheFS α) (key : String) (ignore_expiry : Bool)
    (now : ℚ) : Except Unit (Option α) :=
  if ignore_expiry then Except.ok (readDataFile fs key)
  else
    match cache_is_expired fs key now with
    | Except.error e => Except.error e
    | Except.ok true => Except.ok none
    | Except.ok false => Except.ok (readDataFile fs key)

/-- `DataCache.set`: write the payload, then write fresh metadata stamping
the current time and the configured TTL. -/
def cache_set {α : Type} (fs : CacheFS α) (key : String) (d : α) (now ttl : ℚ) :
    CacheFS α :=
  CacheFS.mk
    (fun k => if k = key then some (FileContent.ok d) else fs.dataF k)
    (fun k => if k = key then some (FileContent.ok (CacheMetadata.mk (some now) ttl))
      else fs.metaF k)

/-- `DataCache.invalidate`: delete the data file and the metadata file when
present. -/
def cache_invalidate {α : Type} (fs : CacheFS α) (key : String) : CacheFS α :=
  CacheFS.mk
    (fun k => if k = key then none else fs.dataF k)
    (fun k => if k = key then none else fs.metaF k)

/-- Outcome of a resolver consumer's disambiguation decision. -/
inductive ResolveOutcome where
  | noMatch
  | auto (pid : Nat)
  | candidates (l : List (Nat × ℚ))
  | ambiguousMessage
deriving DecidableEq

/-- The decision logic of the `find_player` tool on the resolver's match list:
auto-select on a single match, or when the top score is at least `0.95` and
beats the runner-up by more than `0.2`; otherwise list the first ten
candidates. -/
def find_player_outcome (ms : List (Nat × ℚ)) : ResolveOutcome :=
  match ms with
  | [] => ResolveOutcome.noMatch
  | [m] => ResolveOutcome.auto m.1
  | m0 :: m1 :: rest =>
    if mkRat 95 100 ≤ m0.2 ∧ mkRat 2 10 < m0.2 - m1.2 then ResolveOutcome.auto m0.1
    else ResolveOutcome.candidates ((m0 :: m1 :: rest).take 10)

/-- The per-name resolution step of the `make_transfers` tool: an error
string when nothing matched, an "ambiguous" error string when there are
several match entries and the top score is below `0.95`, otherwise the top
candidate's id. -/
def make_transfers_resolve (ms : List (Nat × ℚ)) : Except String Nat :=
  match ms with
  | [] => Except.error "not found"
  | m0 :: rest =>
    if rest.length + 1 > 1 ∧ m0.2 < mkRat 95 100 then Except.error "ambiguous"
    else Except.ok m0.1

/-- The decision logic of the `get_player_details` tool: several match entries
with a top score below `0.95` yield an "ambiguous" message (no candidate
list); otherwise the top candidate is used. -/
def get_player_details_outcome (ms : List (Nat × ℚ)) : ResolveOutcome :=
  match ms with
  | [] => ResolveOutcome.noMatch
  | m0 :: rest =>
    if rest.length + 1 > 1 ∧ m0.2 < mkRat 95 100 then ResolveOutcome.ambiguousMessage
    else ResolveOutcome.auto m0.1

/-- Follows the spec's words (not the source): a result set is unambiguous
only if it has exactly one candidate, or the top score is at least `0.95`
and exceeds the second-best score by more than `0.2`. -/
def spec_auto_select (ms : List (Nat × ℚ)) : Bool :=
  match ms with
  | [] => false
  | [_] => true
  | m0 :: m1 :: _ => decide (mkRat 95 100 ≤ m0.2) && decide (mkRat 2 10 < m0.2 - m1.2)

/-- A `ratio` stub for runs whose fuzzy tier either is skipped or rejects
everything; `SequenceMatcher(None, "", k).ratio()` is `0` for every
nonempty `k`, so it agrees with difflib on every pair it is applied to in
the concrete runs below. -/
def zeroRatio : String → String → ℚ := fun _ _ => 0

/-- An on-disk state whose metadata file is valid JSON and validates as the
metadata model (any string is accepted for `last_updated`), but whose
`last_updated` is not an ISO timestamp, e.g.
`{"last_updated": "not-a-date", "ttl_hours": 4}`, with the data file
present. -/
def badMetaFS : CacheFS Unit :=
  CacheFS.mk (fun _ => some (FileContent.ok ()))
    (fun _ => some (FileContent.ok (CacheMetadata.mk none 4)))

/-- The state after: create request `"abc"`, complete it successfully with
session `"s1"`, then complete it again as failed with `"bad credentials"`. -/
def loginDoubleCompletion : SessionStore :=
  set_login_failure
    (set_login_success (create_login_request (SessionStore.mk [] []) "abc" 0)
      "abc" "s1")
    "abc" "bad credentials"

/-- A bootstrap payload with the single player Mohamed Salah (web name
"Salah" in lowercase form), indexed under "salah" and "mohamed salah". -/
def bsSalah : BootstrapData :=
  BootstrapData.mk [ElementData.mk 7 "salah" "mohamed" "salah" 1 1 "" ""] [] []

/-- A bootstrap payload with a single player whose keys are "abcdef" (web
name), "x abcd" (full name), "abcd" (surname) and "x abcdef" (first+web). -/
def bsBug : BootstrapData :=
  BootstrapData.mk [ElementData.mk 1 "abcdef" "x" "abcd" 1 1 "" ""] [] []

/-- A bootstrap payload whose two elements share the id `1` and the web
name "a". -/
def bsDup : BootstrapData :=
  BootstrapData.mk
    [ElementData.mk 1 "a" "x" "b" 1 1 "" "", ElementData.mk 1 "a" "x" "b" 1 1 "" ""]
    [] []

/-! ### Association-list lemmas -/

/-- Looking up the key just assigned yields the assigned value. -/
theorem alGet_alSet {κ β : Type} [DecidableEq κ] (l : List (κ × β)) (k : κ) (v : β) :
    alGet (alSet l k v) k = some v := by
  induction l with
  | nil => simp [alSet, alGet]
  | cons kv t ih => by_cases h : kv.1 = k <;> simp [alSet, alGet, h, ih]

/-- Assignment leaves other keys unchanged. -/
theorem alGet_alSet_ne {κ β : Type} [DecidableEq κ] (l : List (κ × β)) (k k2 : κ)
    (v : β) (h : k2 ≠ k) : alGet (alSet l k v) k2 = alGet l k2 := by
  induction l with
  | nil => simp [alSet, alGet, Ne.symm h]
  | cons kv t ih =>
    by_cases h2 : kv.1 = k
    · simp [alSet, alGet, h2, Ne.symm h]
    · by_cases h3 : kv.1 = k2
      · simp [alSet, alGet, h2, h3, h]
      · simp [alSet, alGet, h2, h3, ih]

/-- In-place update of a key transforms exactly its stored value. -/
theorem alGet_alAdjust {κ β : Type} [DecidableEq κ] (l : List (κ × β)) (k : κ)
    (f : β → β) : alGet (alAdjust l k f) k = (alGet l k).map f := by
  induction l with
  | nil => simp [alAdjust, alGet]
  | cons kv t ih => by_cases h : kv.1 = k <;> simp [alAdjust, alGet, h, ih]

/-- A successful lookup comes from an entry of the list. -/
theorem alGet_mem {κ β : Type} [DecidableEq κ] (l : List (κ × β)) (k : κ) (v : β)
    (h : alGet l k = some v) : (k, v) ∈ l := by
  induction l with
  | nil => simp [alGet] at h
  | cons kv t ih =>
    by_cases h2 : kv.1 = k
    · simp [alGet, h2] at h
      subst h2; subst h
      exact List.mem_cons_self _ _
    · simp [alGet, h2] at h
      exact List.mem_cons_of_mem _ (ih h)

/-- Every entry of `alSet l k v` is an old entry or the new binding. -/
theorem mem_alSet {κ β : Type} [DecidableEq κ] (l : List (κ × β)) (k : κ) (v : β)
    (p : κ × β) (hp : p ∈ alSet l k v) : p ∈ l ∨ p = (k, v) := by
  induction l with
  | nil => simp [alSet] at hp; exact Or.inr hp
  | cons kv t ih =>
    by_cases h : kv.1 = k
    · simp [alSet, h] at hp
      rcases hp with hp | hp
      · exact Or.inr hp
      · exact Or.inl (List.mem_cons_of_mem _ hp)
    · rw [show alSet (kv :: t) k v = kv :: alSet t k v from by simp [alSet, h]] at hp
      rcases List.mem_cons.mp hp with hp2 | hp2
      · exact Or.inl (by simp [hp2])
      · rcases ih hp2 with h2 | h2
        · exact Or.inl (List.mem_cons_of_mem _ h2)
        · exact Or.inr h2

/-! ### C3: cache set/get round trip with TTL -/

/-- C3: for every cache key and JSON-serializable payload, `set` then `get`
returns the payload while the TTL has not elapsed, returns absent after the
TTL has elapsed, and still returns the stale payload with
`ignore_expiry=True`. -/
theorem C3_set_get_ttl {α : Type} (fs : CacheFS α) (key : String) (d : α)
    (t0 t1 ttl : ℚ) :
    (t1 < t0 + ttl → cache_get (cache_set fs key d t0 ttl) key false t1 =
        Except.ok (some d))
  ∧ (t0 + ttl < t1 → cache_get (cache_set fs key d t0 ttl) key false t1 =
        Except.ok none)
  ∧ cache_get (cache_set fs key d t0 ttl) key true t1 = Except.ok (some d) := by
  refine ⟨fun h => ?_, fun h => ?_, ?_⟩
  · have h1 : ¬ (t0 + ttl < t1) := not_lt.mpr (le_of_lt h)
    simp [cache_get, cache_set, cache_is_expired, read_metadata, meta_is_expired,
      readDataFile, h1]
  · simp [cache_get, cache_set, cache_is_expired, read_metadata, meta_is_expired,
      readDataFile, h]
  · simp [cache_get, cache_set, readDataFile]

/-- Witness for C3 at the spec's own scenario: TTL 4 hours, written at time
0, read at 3h59m and at 4h01m. -/
theorem C3_set_get_ttl_witness :
    cache_get (cache_set (emptyCacheFS Nat) "bootstrap_data.json" 5 0 4)
        "bootstrap_data.json" false (mkRat 239 60) = Except.ok (some 5)
  ∧ cache_get (cache_set (emptyCacheFS Nat) "bootstrap_data.json" 5 0 4)
        "bootstrap_data.json" false (mkRat 241 60) = Except.ok none
  ∧ cache_get (cache_set (emptyCacheFS Nat) "bootstrap_data.json" 5 0 4)
        "bootstrap_data.json" true (mkRat 241 60) = Except.ok (some 5) :=
  ⟨(C3_set_get_ttl (emptyCacheFS Nat) "bootstrap_data.json" 5 0 (mkRat 239 60) 4).1
      (of_decide_eq_true (by with_unfolding_all rfl)),
   (C3_set_get_ttl (emptyCacheFS Nat) "bootstrap_data.json" 5 0 (mkRat 241 60) 4).2.1
      (of_decide_eq_true (by with_unfolding_all rfl)),
   (C3_set_get_ttl (emptyCacheFS Nat) "bootstrap_data.json" 5 0 (mkRat 241 60) 4).2.2⟩

/-! ### C4: a malformed metadata timestamp makes the read path raise -/

/-- C4 (code bug): on this state `DataCache.is_expired` raises (the
uncaught `ValueError` from `datetime.fromisoformat`) instead of returning a
boolean, and `DataCache.get` without `ignore_expiry` raises instead of
returning an optional value. -/
theorem C4_malformed_metadata_raises :
    cache_is_expired badMetaFS "bootstrap_data.json" 0 = Except.error ()
  ∧ cache_get badMetaFS "bootstrap_data.json" false 0 = Except.error () :=
  ⟨rfl, rfl⟩

/-! ### C8: characterization of is_expired -/

/-- C8: `is_expired` returns true exactly when the data file is missing,
the metadata is missing or unparseable, or the parsed timestamp is more
than `ttl_hours` old; and it returns true on a cache where the key was
never written. -/
theorem C8_is_expired_characterization {α : Type} (fs : CacheFS α) (key : String)
    (now : ℚ) :
    (cache_is_expired fs key now = Except.ok true ↔
      fs.dataF key = none ∨ read_metadata fs key = none ∨
        ∃ m t, read_metadata fs key = some m ∧ m.last_updated = some t ∧
          t + m.ttl_hours < now)
  ∧ cache_is_expired (emptyCacheFS α) key now = Except.ok true := by
  refine ⟨?_, rfl⟩
  cases hd : fs.dataF key with
  | none => simp [cache_is_expired, hd]
  | some c =>
    cases hm : read_metadata fs key with
    | none => simp [cache_is_expired, hd, hm]
    | some m =>
      cases hl : m.last_updated with
      | none => simp [cache_is_expired, hd, hm, meta_is_expired, hl]
      | some t => simp [cache_is_expired, hd, hm, meta_is_expired, hl]

/-! ### C9: invalidate removes both files and is idempotent -/

/-- C9: `invalidate` deletes the data and metadata files, after which `get`
returns absent with or without `ignore_expiry`, and invalidating again
leaves exactly the same state. -/
theorem C9_invalidate_idempotent {α : Type} (fs : CacheFS α) (key : String)
    (b : Bool) (now : ℚ) :
    (cache_invalidate fs key).dataF key = none
  ∧ (cache_invalidate fs key).metaF key = none
  ∧ cache_get (cache_invalidate fs key) key b now = Except.ok none
  ∧ cache_invalidate (cache_invalidate fs key) key = cache_invalidate fs key := by
  refine ⟨by simp [cache_invalidate], by simp [cache_invalidate], ?_, ?_⟩
  · cases b <;>
      simp [cache_get, cache_invalidate, cache_is_expired, readDataFile]
  · simp only [cache_invalidate, CacheFS.mk.injEq]
    constructor <;> funext k2 <;> by_cases h : k2 = key <;> simp [h]

/-! ### C5: login completion transitions -/

/-- C5 counterexample: after the success completion the request is terminal
(`"success"` with session id `"s1"`), yet a second completion call silently
overwrites the terminal status with `"failed"` while the first completion's
session id stays behind. -/
theorem C5_double_completion_counterexample :
    alGet (set_login_success (create_login_request (SessionStore.mk [] []) "abc" 0)
        "abc" "s1").pending_logins "abc" =
      some (PendingLogin.mk 0 "success" (some "s1") none)
  ∧ alGet loginDoubleCompletion.pending_logins "abc" =
      some (PendingLogin.mk 0 "failed" (some "s1") (some "bad credentials")) := by
  constructor <;> rfl

/-- C5 as amended: completion calls are unguarded — whenever the request id
is known, `set_login_failure` unconditionally sets status `"failed"` and its
error message (keeping any session id already recorded), and
`set_login_success` unconditionally sets status `"success"` and its session
id (keeping any error already recorded), regardless of the current status. -/
theorem C5_completion_overwrites (st : SessionStore) (rid sid err : String)
    (pl : PendingLogin) (h : alGet st.pending_logins rid = some pl) :
    alGet (set_login_failure st rid err).pending_logins rid =
      some (PendingLogin.mk pl.created_at "failed" pl.session_id (some err))
  ∧ alGet (set_login_success st rid sid).pending_logins rid =
      some (PendingLogin.mk pl.created_at "success" (some sid) pl.error) := by
  constructor <;> simp [set_login_failure, set_login_success, alGet_alAdjust, h]

/-- Witness for C5's amended statement on a concrete store holding a
request that is already terminal. -/
theorem C5_completion_overwrites_witness :
    alGet (set_login_failure
        (SessionStore.mk [("abc", PendingLogin.mk 0 "success" (some "s1") none)] [])
        "abc" "bad").pending_logins "abc" =
      some (PendingLogin.mk 0 "failed" (some "s1") (some "bad"))
  ∧ alGet (set_login_success
        (SessionStore.mk [("abc", PendingLogin.mk 0 "success" (some "s1") none)] [])
        "abc" "s2").pending_logins "abc" =
      some (PendingLogin.mk 0 "success" (some "s2") none) :=
  C5_completion_overwrites
    (SessionStore.mk [("abc", PendingLogin.mk 0 "success" (some "s1") none)] [])
    "abc" "s2" "bad" (PendingLogin.mk 0 "success" (some "s1") none) rfl

/-! ### C2: the consumers' disambiguation rules -/

/-- C2 counterexample: on two exact-scoring candidates — two players sharing
a surname resolve to `[(1, 1.0), (2, 1.0)]` — the spec's rule says the set
is ambiguous (top score does not beat the runner-up by more than 0.2), yet
`make_transfers` and `get_player_details` auto-select the first candidate,
and `make_transfers` never returns a candidate list for any input. -/
theorem C2_weak_rule_counterexample :
    make_transfers_resolve [(1, 1), (2, 1)] = Except.ok 1
  ∧ get_player_details_outcome [(1, 1), (2, 1)] = ResolveOutcome.auto 1
  ∧ spec_auto_select [(1, 1), (2, 1)] = false
  ∧ find_player_outcome [(1, 1), (2, 1)] =
      ResolveOutcome.candidates [(1, 1), (2, 1)] := by
  refine ⟨?_, ?_, ?_, ?_⟩ <;> with_unfolding_all rfl

/-- C2 as amended: `find_player` auto-selects exactly under the spec's rule
(single candidate, or top ≥ 0.95 and separation > 0.2) and otherwise lists
the candidates capped at ten; but `make_transfers` and `get_player_details`
auto-select whenever there is a single candidate or the top score is at
least 0.95, without the separation requirement, and return an error message
rather than a candidate list otherwise. -/
theorem C2_consumer_rules (ms : List (Nat × ℚ)) (m0 : Nat × ℚ)
    (rest : List (Nat × ℚ)) (h : ms = m0 :: rest) :
    ((∃ pid, find_player_outcome ms = ResolveOutcome.auto pid) ↔
      spec_auto_select ms = true)
  ∧ (∀ l, find_player_outcome ms = ResolveOutcome.candidates l → l = ms.take 10)
  ∧ (make_transfers_resolve ms = Except.ok m0.1 ↔
      (rest = [] ∨ mkRat 95 100 ≤ m0.2))
  ∧ (get_player_details_outcome ms = ResolveOutcome.auto m0.1 ↔
      (rest = [] ∨ mkRat 95 100 ≤ m0.2)) := by
  subst h
  cases rest with
  | nil =>
    simp [find_player_outcome, spec_auto_select, make_transfers_resolve,
      get_player_details_outcome]
  | cons m1 rest2 =>
    have hlen : (rest2.length + 1) + 1 > 1 := by omega
    refine ⟨?_, ?_, ?_, ?_⟩
    · by_cases hc : mkRat 95 100 ≤ m0.2 ∧ mkRat 2 10 < m0.2 - m1.2 <;>
        simp [find_player_outcome, spec_auto_select, hc]
    · intro l hl
      by_cases hc : mkRat 95 100 ≤ m0.2 ∧ mkRat 2 10 < m0.2 - m1.2 <;>
        simp [find_player_outcome, hc] at hl
      exact hl.symm
    · by_cases hc : m0.2 < mkRat 95 100
      · simp [make_transfers_resolve, hlen, hc, not_le.mpr hc]
      · simp [make_transfers_resolve, hlen, hc, not_lt.mp hc]
    · by_cases hc : m0.2 < mkRat 95 100
      · simp [get_player_details_outcome, hlen, hc, not_le.mpr hc]
      · simp [get_player_details_outcome, hlen, hc, not_lt.mp hc]

/-- Witness for C2's amended statement on a concrete singleton match list. -/
theorem C2_consumer_rules_witness :
    ((∃ pid, find_player_outcome [(3, 1)] = ResolveOutcome.auto pid) ↔
      spec_auto_select [(3, 1)] = true)
  ∧ (∀ l, find_player_outcome [(3, 1)] = ResolveOutcome.candidates l →
      l = [(3, 1)].take 10)
  ∧ (make_transfers_resolve [(3, 1)] = Except.ok 3 ↔
      (([] : List (Nat × ℚ)) = [] ∨ mkRat 95 100 ≤ (1 : ℚ)))
  ∧ (get_player_details_outcome [(3, 1)] = ResolveOutcome.auto 3 ↔
      (([] : List (Nat × ℚ)) = [] ∨ mkRat 95 100 ≤ (1 : ℚ))) :=
  C2_consumer_rules [(3, 1)] (3, 1) [] rfl

/-! ### Membership lemmas for the resolver tiers -/

/-- Every entry after a guarded update is an old entry or carries the
scaled score. -/
theorem mem_condUpdate (r : List (Nat × ℚ)) (pid : Nat) (sim scale : ℚ)
    (p : Nat × ℚ) (hp : p ∈ condUpdate r pid sim scale) :
    p ∈ r ∨ p = (pid, sim * scale) := by
  rcases hg : alGet r pid with _ | old
  · simp only [condUpdate, hg] at hp
    exact mem_alSet _ _ _ _ hp
  · simp only [condUpdate, hg] at hp
    by_cases ho : old < sim
    · rw [if_pos ho] at hp
      exact mem_alSet _ _ _ _ hp
    · rw [if_neg ho] at hp
      exact Or.inl hp

/-- Entries of the per-key player loop of the substring/fuzzy tiers. -/
theorem mem_foldl_condUpdate (pids : List Nat) (sim scale : ℚ)
    (r : List (Nat × ℚ)) (p : Nat × ℚ)
    (hp : p ∈ pids.foldl (fun r2 pid => condUpdate r2 pid sim scale) r) :
    p ∈ r ∨ ∃ pid ∈ pids, p = (pid, sim * scale) := by
  induction pids generalizing r with
  | nil => exact Or.inl hp
  | cons pid t ih =>
    rcases ih (condUpdate r pid sim scale) hp with h | ⟨pid2, hmem, he⟩
    · rcases mem_condUpdate _ _ _ _ _ h with h2 | h2
      · exact Or.inl h2
      · exact Or.inr ⟨pid, List.mem_cons_self _ _, h2⟩
    · exact Or.inr ⟨pid2, List.mem_cons_of_mem _ hmem, he⟩

/-- Entries of the tier-1 accumulation all score `1.0` and come from the
looked-up id list. -/
theorem mem_foldl_setOne (pids : List Nat) (r : List (Nat × ℚ)) (p : Nat × ℚ)
    (hp : p ∈ pids.foldl (fun r2 pid => alSet r2 pid 1) r) :
    p ∈ r ∨ ∃ pid ∈ pids, p = (pid, 1) := by
  induction pids generalizing r with
  | nil => exact Or.inl hp
  | cons pid t ih =>
    rcases ih (alSet r pid 1) hp with h | ⟨pid2, hmem, he⟩
    · rcases mem_alSet _ _ _ _ h with h2 | h2
      · exact Or.inl h2
      · exact Or.inr ⟨pid, List.mem_cons_self _ _, h2⟩
    · exact Or.inr ⟨pid2, List.mem_cons_of_mem _ hmem, he⟩

/-- Entries of tier 1: an exact hit gives the key's id list, every entry
scoring `1.0`. -/
theorem mem_tier_exact (nm : List (String × List Nat)) (q : String)
    (p : Nat × ℚ) (hp : p ∈ tier_exact nm q) :
    ∃ pids, alGet nm q = some pids ∧ p.1 ∈ pids ∧ p.2 = 1 := by
  rcases hg : alGet nm q with _ | pids
  · simp only [tier_exact, hg] at hp
    exact absurd hp (List.not_mem_nil p)
  · simp only [tier_exact, hg] at hp
    rcases mem_foldl_setOne pids [] p hp with h | ⟨pid, hm, he⟩
    · exact absurd h (List.not_mem_nil p)
    · exact ⟨pids, rfl, by rw [he]; exact hm, by rw [he]⟩

/-- Entries of the key loop of tier 2. -/
theorem mem_foldl_substring (nm : List (String × List Nat)) (q : String)
    (r : List (Nat × ℚ)) (p : Nat × ℚ)
    (hp : p ∈ nm.foldl (fun r kp =>
        if strSubOf q kp.1 || strSubOf kp.1 q then
          kp.2.foldl (fun r2 pid => condUpdate r2 pid (simRatio q kp.1) (mkRat 9 10)) r
        else r) r) :
    p ∈ r ∨ ∃ kp ∈ nm, p.1 ∈ kp.2 ∧ p.2 = simRatio q kp.1 * mkRat 9 10 := by
  induction nm generalizing r with
  | nil => exact Or.inl hp
  | cons kp t ih =>
    simp only [List.foldl_cons] at hp
    rcases ih _ hp with h | ⟨kp2, h2, h3⟩
    · by_cases hc : strSubOf q kp.1 || strSubOf kp.1 q
      · rw [if_pos hc] at h
        rcases mem_foldl_condUpdate _ _ _ _ _ h with h2 | ⟨pid, hpid, he⟩
        · exact Or.inl h2
        · refine Or.inr ⟨kp, List.mem_cons_self _ _, ?_, ?_⟩ <;> simp [he, hpid]
      · rw [if_neg hc] at h
        exact Or.inl h
    · exact Or.inr ⟨kp2, List.mem_cons_of_mem _ h2, h3⟩

/-- Entries of tier 2: an old tier-1 entry, or a substring hit scored
`similarity * 0.9`. -/
theorem mem_tier_substring (nm : List (String × List Nat)) (q : String)
    (r0 : List (Nat × ℚ)) (p : Nat × ℚ) (hp : p ∈ tier_substring nm q r0) :
    p ∈ r0 ∨ ∃ kp ∈ nm, p.1 ∈ kp.2 ∧ p.2 = simRatio q kp.1 * mkRat 9 10 := by
  by_cases h0 : r0 = []
  · rw [tier_substring, if_pos h0] at hp
    exact mem_foldl_substring nm q r0 p hp
  · rw [tier_substring, if_neg h0] at hp
    exact Or.inl hp

/-- Entries of the key loop of tier 3. -/
theorem mem_foldl_fuzzy (ratio : String → String → ℚ)
    (nm : List (String × List Nat)) (q : String)
    (r : List (Nat × ℚ)) (p : Nat × ℚ)
    (hp : p ∈ nm.foldl (fun r kp =>
        if mkRat 6 10 ≤ ratio q kp.1 then
          kp.2.foldl (fun r3 pid => condUpdate r3 pid (ratio q kp.1) (mkRat 8 10)) r
        else r) r) :
    p ∈ r ∨ ∃ kp ∈ nm, p.1 ∈ kp.2 ∧ mkRat 6 10 ≤ ratio q kp.1 ∧
      p.2 = ratio q kp.1 * mkRat 8 10 := by
  induction nm generalizing r with
  | nil => exact Or.inl hp
  | cons kp t ih =>
    simp only [List.foldl_cons] at hp
    rcases ih _ hp with h | ⟨kp2, h2, h3⟩
    · by_cases hc : mkRat 6 10 ≤ ratio q kp.1
      · rw [if_pos hc] at h
        rcases mem_foldl_condUpdate _ _ _ _ _ h with h2 | ⟨pid, hpid, he⟩
        · exact Or.inl h2
        · refine Or.inr ⟨kp, List.mem_cons_self _ _, ?_, hc, ?_⟩ <;> simp [he, hpid]
      · rw [if_neg hc] at h
        exact Or.inl h
    · exact Or.inr ⟨kp2, List.mem_cons_of_mem _ h2, h3⟩

/-- Entries of tier 3: an entry of the earlier tiers, or a fuzzy hit with
ratio at least `0.6` scored `ratio * 0.8`. -/
theorem mem_tier_fuzzy (ratio : String → String → ℚ)
    (nm : List (String × List Nat)) (q : String) (fuzzy : Bool)
    (r2 : List (Nat × ℚ)) (p : Nat × ℚ) (hp : p ∈ tier_fuzzy ratio nm q fuzzy r2) :
    p ∈ r2 ∨ ∃ kp ∈ nm, p.1 ∈ kp.2 ∧ mkRat 6 10 ≤ ratio q kp.1 ∧
      p.2 = ratio q kp.1 * mkRat 8 10 := by
  by_cases hg : fuzzy = true ∧ (r2 = [] ∨ maxScore r2 < mkRat 7 10)
  · rw [tier_fuzzy, if_pos hg] at hp
    exact mem_foldl_fuzzy ratio nm q r2 p hp
  · rw [tier_fuzzy, if_neg hg] at hp
    exact Or.inl hp

/-! ### The final sort: sortedness, permutation, stability -/

/-- The final sort permutes the accumulated scores. -/
theorem sortDesc_perm (l : List (Nat × ℚ)) : (sortDesc l).Perm l :=
  List.perm_insertionSort _ l

/-- The final sort yields descending scores. -/
theorem sortDesc_sorted (l : List (Nat × ℚ)) :
    (sortDesc l).Pairwise (fun a b => b.2 ≤ a.2) := by
  have ht : IsTotal (Nat × ℚ) (fun a b => b.2 ≤ a.2) := ⟨fun a b => le_total b.2 a.2⟩
  have htr : IsTrans (Nat × ℚ) (fun a b => b.2 ≤ a.2) :=
    ⟨fun a b c h1 h2 => le_trans h2 h1⟩
  exact List.sorted_insertionSort _ l

/-- Inserting an element places it in front of every equally-scored
element, so each score class keeps its original order. -/
theorem filter_orderedInsert (x : Nat × ℚ) (l : List (Nat × ℚ)) (s : ℚ) :
    (List.orderedInsert (fun a b => b.2 ≤ a.2) x l).filter (fun p => decide (p.2 = s)) =
      if x.2 = s then x :: l.filter (fun p => decide (p.2 = s))
      else l.filter (fun p => decide (p.2 = s)) := by
  induction l with
  | nil => by_cases hx : x.2 = s <;> simp [List.orderedInsert, hx]
  | cons b t ih =>
    by_cases hr : b.2 ≤ x.2
    · rw [show List.orderedInsert (fun a b => b.2 ≤ a.2) x (b :: t) = x :: b :: t from by
        simp [List.orderedInsert, hr]]
      by_cases hx : x.2 = s <;> by_cases hb : b.2 = s <;>
        simp [hx, hb, List.filter_cons]
    · rw [show List.orderedInsert (fun a b => b.2 ≤ a.2) x (b :: t)
          = b :: List.orderedInsert (fun a b => b.2 ≤ a.2) x t from by
        simp [List.orderedInsert, hr]]
      by_cases hx : x.2 = s
      · have hb : ¬ b.2 = s := fun hb => hr (le_of_eq (hb.trans hx.symm))
        simp [List.filter_cons, hb, hx, ih]
      · by_cases hb : b.2 = s <;> simp [List.filter_cons, hb, hx, ih]

/-- Stability of the final sort: for every score, the sub-list of entries
with that score is unchanged. -/
theorem filter_sortDesc (l : List (Nat × ℚ)) (s : ℚ) :
    (sortDesc l).filter (fun p => decide (p.2 = s)) =
      l.filter (fun p => decide (p.2 = s)) := by
  induction l with
  | nil => rfl
  | cons x t ih =>
    show (List.orderedInsert _ x (List.insertionSort _ t)).filter _ = _
    rw [filter_orderedInsert]
    simp only [sortDesc] at ih
    by_cases hx : x.2 = s <;> simp [hx, ih, List.filter_cons]

/-! ### C7: the fuzzy tier -/

/-- The fuzzy tier leaves the earlier tiers' results untouched when its
entry condition fails. -/
theorem tier_fuzzy_skip (ratio : String → String → ℚ)
    (nm : List (String × List Nat)) (q : String) (fuzzy : Bool)
    (r2 : List (Nat × ℚ))
    (h : ¬ (fuzzy = true ∧ (r2 = [] ∨ maxScore r2 < mkRat 7 10))) :
    tier_fuzzy ratio nm q fuzzy r2 = r2 := by
  rw [tier_fuzzy, if_neg h]

/-- C7: the fuzzy tier runs only when the exact/substring tiers produced no
candidate or a best score below `0.7`; every entry it adds or changes comes
from an indexed key with ratio at least `0.6`, is scored `ratio * 0.8`, and
hence is at most `0.8` — strictly below the substring ceiling `0.9` and the
exact score `1.0`. -/
theorem C7_fuzzy_tier_gating (ratio : String → String → ℚ)
    (nm : List (String × List Nat)) (q : String)
    (hr : ∀ a b, 0 ≤ ratio a b ∧ ratio a b ≤ 1) :
    (tier_substring nm (normalize_name q) (tier_exact nm (normalize_name q)) ≠ [] →
      ¬ maxScore (tier_substring nm (normalize_name q)
          (tier_exact nm (normalize_name q))) < mkRat 7 10 →
      preScores ratio nm q true =
        tier_substring nm (normalize_name q) (tier_exact nm (normalize_name q)))
  ∧ ∀ p ∈ preScores ratio nm q true,
      p ∈ tier_substring nm (normalize_name q) (tier_exact nm (normalize_name q)) ∨
      ∃ kp ∈ nm, p.1 ∈ kp.2 ∧ mkRat 6 10 ≤ ratio (normalize_name q) kp.1 ∧
        p.2 = ratio (normalize_name q) kp.1 * mkRat 8 10 ∧
        p.2 ≤ mkRat 8 10 ∧ p.2 < mkRat 9 10 ∧ p.2 < 1 := by
  constructor
  · intro h1 h2
    exact tier_fuzzy_skip ratio nm (normalize_name q) true _
      (by rintro ⟨_, hor⟩; exact hor.elim h1 h2)
  · intro p hp
    rcases mem_tier_fuzzy ratio nm (normalize_name q) true _ p hp with
      h | ⟨kp, hkp, hpid, hge, he⟩
    · exact Or.inl h
    · have hle : ratio (normalize_name q) kp.1 ≤ 1 := (hr _ _).2
      have h8 : (0 : ℚ) ≤ mkRat 8 10 := by decide
      have hb : p.2 ≤ mkRat 8 10 := by
        rw [he]
        calc ratio (normalize_name q) kp.1 * mkRat 8 10
            ≤ 1 * mkRat 8 10 := mul_le_mul_of_nonneg_right hle h8
          _ = mkRat 8 10 := one_mul _
      exact Or.inr ⟨kp, hkp, hpid, hge, he, hb,
        lt_of_le_of_lt hb (by decide), lt_of_le_of_lt hb (by decide)⟩

/-- Witness for C7's gating clause: an exact hit scores `1.0 ≥ 0.7`, so the
fuzzy tier is skipped. -/
theorem C7_fuzzy_tier_gating_witness :
    preScores zeroRatio [("ab", [3])] "ab" true =
      tier_substring [("ab", [3])] (normalize_name "ab")
        (tier_exact [("ab", [3])] (normalize_name "ab")) :=
  (C7_fuzzy_tier_gating zeroRatio [("ab", [3])] "ab"
      (fun _ _ => ⟨le_refl 0, zero_le_one⟩)).1
    (by decide) (by decide)

/-! ### C6: order, stability and score range of the resolver output -/

/-- For nonempty strings the substring-tier similarity lies in `(0, 1]`. -/
theorem simRatio_bounds (a b : String) (ha : 0 < a.length) (hb : 0 < b.length) :
    0 < simRatio a b ∧ simRatio a b ≤ 1 := by
  have hm : 0 < min a.length b.length := lt_min ha hb
  have hM : (0 : ℚ) < (max a.length b.length : ℚ) := by
    exact_mod_cast lt_of_lt_of_le hm min_le_max
  have hmM : ((min a.length b.length : ℚ)) ≤ (max a.length b.length : ℚ) := by
    exact_mod_cast (min_le_max : min a.length b.length ≤ max a.length b.length)
  constructor
  · rw [simRatio, Rat.mkRat_eq_div]
    push_cast
    apply div_pos _ hM
    exact_mod_cast hm
  · rw [simRatio, Rat.mkRat_eq_div]
    push_cast
    rw [div_le_one hM]
    exact hmM

/-- Every score the three tiers accumulate lies in `(0, 1]`, provided the
normalized query and every indexed key are nonempty and the fuzzy ratio is
bounded by `[0, 1]`. -/
theorem preScores_bounds (ratio : String → String → ℚ)
    (nm : List (String × List Nat)) (q : String) (fuzzy : Bool)
    (hr : ∀ a b, 0 ≤ ratio a b ∧ ratio a b ≤ 1)
    (hq : 0 < (normalize_name q).length)
    (hk : ∀ kp ∈ nm, 0 < kp.1.length) :
    ∀ p ∈ preScores ratio nm q fuzzy, 0 < p.2 ∧ p.2 ≤ 1 := by
  intro p hp
  rcases mem_tier_fuzzy ratio nm (normalize_name q) fuzzy _ p hp with
    h2 | ⟨kp, hkp, _, hge, he⟩
  · rcases mem_tier_substring nm (normalize_name q) _ p h2 with
      h1 | ⟨kp, hkp, _, he⟩
    · obtain ⟨pids, _, _, he⟩ := mem_tier_exact nm (normalize_name q) p h1
      rw [he]
      exact ⟨zero_lt_one, le_refl 1⟩
    · obtain ⟨hpos, hle⟩ := simRatio_bounds (normalize_name q) kp.1 hq (hk kp hkp)
      rw [he]
      refine ⟨mul_pos hpos (by decide), ?_⟩
      calc simRatio (normalize_name q) kp.1 * mkRat 9 10
          ≤ 1 * mkRat 9 10 := mul_le_mul_of_nonneg_right hle (by decide)
        _ = mkRat 9 10 := one_mul _
        _ ≤ 1 := by decide
  · rw [he]
    refine ⟨mul_pos (lt_of_lt_of_le (by decide) hge) (by decide), ?_⟩
    calc ratio (normalize_name q) kp.1 * mkRat 8 10
        ≤ 1 * mkRat 8 10 := mul_le_mul_of_nonneg_right (hr _ _).2 (by decide)
      _ = mkRat 8 10 := one_mul _
      _ ≤ 1 := by decide

/-- A score-preserving partial map keeps the list sorted by descending
score (the element-assembly step of `find_players_by_name`). -/
theorem pairwise_score_filterMap (l : List (Nat × ℚ))
    (f : Nat × ℚ → Option (ElementData × ℚ))
    (hf : ∀ p q2, f p = some q2 → q2.2 = p.2)
    (hl : l.Pairwise (fun a b => b.2 ≤ a.2)) :
    (l.filterMap f).Pairwise (fun a b => b.2 ≤ a.2) := by
  induction l with
  | nil => simp
  | cons x t ih =>
    obtain ⟨hx, ht⟩ := List.pairwise_cons.mp hl
    rw [List.filterMap_cons]
    cases hfx : f x with
    | none => exact ih ht
    | some y =>
      refine List.pairwise_cons.mpr ⟨fun b hb => ?_, ih ht⟩
      obtain ⟨a, ha, hfa⟩ := List.mem_filterMap.mp hb
      rw [hf x y hfx, hf a b hfa]
      exact hx a ha

/-- C6 as amended: for every query whose normalized form is nonempty, over
an index whose keys are nonempty, the resolver output is sorted by
descending score, is a permutation of the accumulated scores whose equal-
score runs keep their insertion order (stable sort), and every returned
score lies in `(0, 1]` — both for the id-score list and for the assembled
`find_players_by_name` output. An empty or whitespace-only query violates
the score range — see the counterexample. -/
theorem C6_sorted_stable_scores (ratio : String → String → ℚ)
    (nm : List (String × List Nat)) (q : String) (fuzzy : Bool)
    (hr : ∀ a b, 0 ≤ ratio a b ∧ ratio a b ≤ 1)
    (hq : 0 < (normalize_name q).length)
    (hk : ∀ kp ∈ nm, 0 < kp.1.length) :
    (resolveScores ratio nm q fuzzy).Pairwise (fun a b => b.2 ≤ a.2)
  ∧ (resolveScores ratio nm q fuzzy).Perm (preScores ratio nm q fuzzy)
  ∧ (∀ s : ℚ, (resolveScores ratio nm q fuzzy).filter (fun p => decide (p.2 = s)) =
      (preScores ratio nm q fuzzy).filter (fun p => decide (p.2 = s)))
  ∧ (∀ p ∈ resolveScores ratio nm q fuzzy, 0 < p.2 ∧ p.2 ≤ 1)
  ∧ (∀ (bd : Option BootstrapData) (idm : List (Nat × ElementData)),
      (find_players_by_name ratio bd (Indices.mk nm idm) q fuzzy).Pairwise
        (fun a b => b.2 ≤ a.2))
  ∧ ∀ (bd : Option BootstrapData) (idm : List (Nat × ElementData))
      (p : ElementData × ℚ),
      p ∈ find_players_by_name ratio bd (Indices.mk nm idm) q fuzzy →
      0 < p.2 ∧ p.2 ≤ 1 := by
  have hbound : ∀ p ∈ resolveScores ratio nm q fuzzy, 0 < p.2 ∧ p.2 ≤ 1 := by
    intro p hp
    exact preScores_bounds ratio nm q fuzzy hr hq hk p ((sortDesc_perm _).mem_iff.mp hp)
  refine ⟨sortDesc_sorted _, sortDesc_perm _, fun s => filter_sortDesc _ s, hbound,
    ?_, ?_⟩
  · intro bd idm
    cases bd with
    | none => simp [find_players_by_name]
    | some b =>
      exact pairwise_score_filterMap _ _
        (fun p q2 hpq => by
          obtain ⟨e, _, he⟩ := Option.map_eq_some'.mp hpq
          rw [← he])
        (sortDesc_sorted _)
  · intro bd idm p hp
    cases bd with
    | none => simp [find_players_by_name] at hp
    | some b =>
      obtain ⟨a, ha, hfa⟩ := List.mem_filterMap.mp hp
      obtain ⟨e, _, he⟩ := Option.map_eq_some'.mp hfa
      have h2 := hbound a ha
      rw [← he]
      exact h2

/-- C6 counterexample: the empty query exact-matches nothing, substring-
matches every key with similarity `0/len = 0`, and the fuzzy tier adds
nothing; the resolver returns the player with score `0.0`, which is not in
`(0, 1]`. -/
theorem C6_empty_query_counterexample :
    resolveScores zeroRatio (build_player_indices bsSalah).nameMap "" true = [(7, 0)]
  ∧ ¬ (∀ p ∈ resolveScores zeroRatio (build_player_indices bsSalah).nameMap "" true,
        0 < p.2) := by
  have h : resolveScores zeroRatio (build_player_indices bsSalah).nameMap "" true
      = [(7, 0)] := by with_unfolding_all rfl
  refine ⟨h, fun hall => ?_⟩
  have h2 := hall (7, 0) (by rw [h]; exact List.mem_singleton_self _)
  simp at h2

/-- Witness for C6's amended statement on the Salah index with the query
"salah". -/
theorem C6_sorted_stable_scores_witness :
    (resolveScores zeroRatio (build_player_indices bsSalah).nameMap "salah" true).Pairwise
        (fun a b => b.2 ≤ a.2)
  ∧ (resolveScores zeroRatio (build_player_indices bsSalah).nameMap "salah" true).Perm
        (preScores zeroRatio (build_player_indices bsSalah).nameMap "salah" true)
  ∧ (∀ s : ℚ, (resolveScores zeroRatio (build_player_indices bsSalah).nameMap "salah"
          true).filter (fun p => decide (p.2 = s)) =
        (preScores zeroRatio (build_player_indices bsSalah).nameMap "salah"
          true).filter (fun p => decide (p.2 = s)))
  ∧ (∀ p ∈ resolveScores zeroRatio (build_player_indices bsSalah).nameMap "salah" true,
      0 < p.2 ∧ p.2 ≤ 1)
  ∧ (∀ (bd : Option BootstrapData) (idm : List (Nat × ElementData)),
      (find_players_by_name zeroRatio bd
          (Indices.mk (build_player_indices bsSalah).nameMap idm) "salah"
          true).Pairwise (fun a b => b.2 ≤ a.2))
  ∧ ∀ (bd : Option BootstrapData) (idm : List (Nat × ElementData))
      (p : ElementData × ℚ),
      p ∈ find_players_by_name zeroRatio bd
        (Indices.mk (build_player_indices bsSalah).nameMap idm) "salah" true →
      0 < p.2 ∧ p.2 ≤ 1 :=
  C6_sorted_stable_scores zeroRatio (build_player_indices bsSalah).nameMap "salah" true
    (fun _ _ => ⟨le_refl 0, zero_le_one⟩) (by decide) (by decide)

/-! ### C1: the final score is not always the best key score -/

/-- C1 (code bug): on the query "abcde" the key "abcdef" alone scores
`5/6 * 0.9 = 0.75`, yet the resolver returns `0.72`: the later key "abcd"
has raw similarity `0.8 > 0.75`, so the guard `similarity >
results[player_id]` (raw versus scaled) fires and overwrites the better
score with `0.8 * 0.9 = 0.72`. The returned score is strictly below the
best single-key score, the fuzzy tier being skipped (`0.72 ≥ 0.7`). -/
theorem C1_score_not_best_key :
    resolveScores zeroRatio (build_player_indices bsBug).nameMap "abcde" true
      = [(1, mkRat 18 25)]
  ∧ simRatio (normalize_name "abcde") (normalize_name "abcdef") * mkRat 9 10
      = mkRat 3 4
  ∧ alGet (build_player_indices bsBug).nameMap (normalize_name "abcdef") = some [1]
  ∧ mkRat 18 25 < mkRat 3 4 := by
  refine ⟨?_, ?_, ?_, ?_⟩
  · with_unfolding_all rfl
  · with_unfolding_all rfl
  · with_unfolding_all rfl
  · decide

/-! ### C10: invariants of the built indices -/

/-- Appending a fresh id under a key preserves duplicate-freedom of every
id list and extends the id bound. -/
theorem nameMapAppend_inv (nm : List (String × List Nat)) (key : String)
    (pid : Nat) (seen : List Nat)
    (h : ∀ kp ∈ nm, kp.2.Nodup ∧ ∀ x ∈ kp.2, x ∈ seen)
    (hfresh : pid ∉ seen) :
    ∀ kp ∈ nameMapAppend nm key pid, kp.2.Nodup ∧ ∀ x ∈ kp.2, x ∈ seen ++ [pid] := by
  intro kp hkp
  rcases hg : alGet nm key with _ | l
  · simp only [nameMapAppend, hg] at hkp
    rcases List.mem_append.mp hkp with h2 | h2
    · obtain ⟨hnd, hsub⟩ := h kp h2
      exact ⟨hnd, fun x hx => List.mem_append.mpr (Or.inl (hsub x hx))⟩
    · have he : kp = (key, [pid]) := by simpa using h2
      subst he
      refine ⟨List.nodup_singleton _, fun x hx => ?_⟩
      have he2 : x = pid := by simpa using hx
      subst he2
      exact List.mem_append.mpr (Or.inr (List.mem_singleton_self _))
  · simp only [nameMapAppend, hg] at hkp
    rcases mem_alSet _ _ _ _ hkp with h2 | h2
    · obtain ⟨hnd, hsub⟩ := h kp h2
      exact ⟨hnd, fun x hx => List.mem_append.mpr (Or.inl (hsub x hx))⟩
    · obtain ⟨hnd, hsub⟩ := h (key, l) (alGet_mem _ _ _ hg)
      subst h2
      have hpl : pid ∉ l := fun hm => hfresh (hsub pid hm)
      refine ⟨?_, fun x hx => ?_⟩
      · simp only []
        simp [List.nodup_append, hnd, hpl]
      · rcases List.mem_append.mp hx with hx2 | hx2
        · exact List.mem_append.mpr (Or.inl (hsub x hx2))
        · have he2 : x = pid := by simpa using hx2
          subst he2
          exact List.mem_append.mpr (Or.inr (List.mem_singleton_self _))

/-- The guarded (duplicate-checking) append preserves both invariants when
the id is already accounted for. -/
theorem nameMapAppendNew_inv (nm : List (String × List Nat)) (key : String)
    (pid : Nat) (seen : List Nat)
    (h : ∀ kp ∈ nm, kp.2.Nodup ∧ ∀ x ∈ kp.2, x ∈ seen)
    (hpid : pid ∈ seen) :
    ∀ kp ∈ nameMapAppendNew nm key pid, kp.2.Nodup ∧ ∀ x ∈ kp.2, x ∈ seen := by
  intro kp hkp
  rcases hg : alGet nm key with _ | l
  · simp only [nameMapAppendNew, hg] at hkp
    rcases List.mem_append.mp hkp with h2 | h2
    · exact h kp h2
    · have he : kp = (key, [pid]) := by simpa using h2
      subst he
      refine ⟨List.nodup_singleton _, fun x hx => ?_⟩
      have he2 : x = pid := by simpa using hx
      subst he2
      exact hpid
  · simp only [nameMapAppendNew, hg] at hkp
    by_cases hin : pid ∈ l
    · rw [if_pos hin] at hkp
      exact h kp hkp
    · rw [if_neg hin] at hkp
      rcases mem_alSet _ _ _ _ hkp with h2 | h2
      · exact h kp h2
      · obtain ⟨hnd, hsub⟩ := h (key, l) (alGet_mem _ _ _ hg)
        subst h2
        refine ⟨?_, fun x hx => ?_⟩
        · simp only []
          simp [List.nodup_append, hnd, hin]
        · rcases List.mem_append.mp hx with hx2 | hx2
          · exact hsub x hx2
          · have he2 : x = pid := by simpa using hx2
            subst he2
            exact hpid

/-- One indexing step preserves both index invariants, consuming one fresh
element id. -/
theorem indexElement_inv (tm pm : List (Nat × String)) (ix : Indices)
    (e : ElementData) (seen : List Nat)
    (h1 : ∀ kp ∈ ix.nameMap, kp.2.Nodup ∧ ∀ x ∈ kp.2, x ∈ seen)
    (h2 : ∀ pid ∈ seen, (alGet ix.idMap pid).isSome = true)
    (hfresh : e.id ∉ seen) :
    (∀ kp ∈ (indexElement tm pm ix e).nameMap,
        kp.2.Nodup ∧ ∀ x ∈ kp.2, x ∈ seen ++ [e.id])
  ∧ ∀ pid ∈ seen ++ [e.id], (alGet (indexElement tm pm ix e).idMap pid).isSome = true := by
  have hpid : e.id ∈ seen ++ [e.id] :=
    List.mem_append.mpr (Or.inr (List.mem_singleton_self _))
  have hm1 := nameMapAppend_inv ix.nameMap (normalize_name e.web_name) e.id seen h1 hfresh
  have hm2 := nameMapAppendNew_inv
    (nameMapAppend ix.nameMap (normalize_name e.web_name) e.id)
    (normalize_name (e.first_name ++ " " ++ e.second_name)) e.id (seen ++ [e.id])
    hm1 hpid
  have hm3 := nameMapAppendNew_inv
    (nameMapAppendNew (nameMapAppend ix.nameMap (normalize_name e.web_name) e.id)
      (normalize_name (e.first_name ++ " " ++ e.second_name)) e.id)
    (normalize_name e.second_name) e.id (seen ++ [e.id]) hm2 hpid
  constructor
  · intro kp hkp
    simp only [indexElement] at hkp
    by_cases hc : e.first_name ≠ "" ∧ e.web_name ≠ e.second_name
    · rw [if_pos hc] at hkp
      exact nameMapAppendNew_inv _ (normalize_name (e.first_name ++ " " ++ e.web_name))
        e.id (seen ++ [e.id]) hm3 hpid kp hkp
    · rw [if_neg hc] at hkp
      exact hm3 kp hkp
  · intro pid hpidm
    simp only [indexElement]
    by_cases hEq : pid = e.id
    · subst hEq
      rw [alGet_alSet]
      rfl
    · rw [alGet_alSet_ne _ _ _ _ hEq]
      rcases List.mem_append.mp hpidm with hx | hx
      · exact h2 pid hx
      · exact absurd (by simpa using hx) hEq

/-- Folding the element loop over distinct ids keeps every id list
duplicate-free and every registered id resolvable in the id map. -/
theorem build_fold_inv (tm pm : List (Nat × String)) (els : List ElementData)
    (ix : Indices) (seen : List Nat)
    (hn : (els.map (fun e => e.id)).Nodup)
    (hdisj : ∀ e ∈ els, e.id ∉ seen)
    (h1 : ∀ kp ∈ ix.nameMap, kp.2.Nodup ∧ ∀ x ∈ kp.2, x ∈ seen)
    (h2 : ∀ pid ∈ seen, (alGet ix.idMap pid).isSome = true) :
    (∀ kp ∈ (els.foldl (indexElement tm pm) ix).nameMap,
        kp.2.Nodup ∧ ∀ x ∈ kp.2, x ∈ seen ++ els.map (fun e => e.id))
  ∧ ∀ pid ∈ seen ++ els.map (fun e => e.id),
      (alGet (els.foldl (indexElement tm pm) ix).idMap pid).isSome = true := by
  induction els generalizing ix seen with
  | nil =>
    refine ⟨fun kp hkp => ?_, fun pid hpid => ?_⟩
    · obtain ⟨hnd, hsub⟩ := h1 kp hkp
      exact ⟨hnd, fun x hx => by simpa using hsub x hx⟩
    · exact h2 pid (by simpa using hpid)
  | cons e t ih =>
    have hfresh : e.id ∉ seen := hdisj e (List.mem_cons_self _ _)
    obtain ⟨g1, g2⟩ := indexElement_inv tm pm ix e seen h1 h2 hfresh
    have hn0 : e.id ∉ t.map (fun e => e.id) := (List.nodup_cons.mp (by simpa using hn)).1
    have hn2 : (t.map (fun e => e.id)).Nodup := (List.nodup_cons.mp (by simpa using hn)).2
    have hdisj2 : ∀ e2 ∈ t, e2.id ∉ seen ++ [e.id] := by
      intro e2 he2 hmem
      rcases List.mem_append.mp hmem with hx | hx
      · exact hdisj e2 (List.mem_cons_of_mem _ he2) hx
      · have hx2 : e2.id = e.id := by simpa using hx
        exact hn0 (hx2 ▸ List.mem_map.mpr ⟨e2, he2, rfl⟩)
    obtain ⟨r1, r2⟩ := ih (indexElement tm pm ix e) (seen ++ [e.id]) hn2 hdisj2 g1 g2
    refine ⟨fun kp hkp => ?_, fun pid hpid => ?_⟩
    · obtain ⟨hnd, hsub⟩ := r1 kp hkp
      refine ⟨hnd, fun x hx => ?_⟩
      have hx2 := hsub x hx
      simpa [List.append_assoc] using hx2
    · exact r2 pid (by simpa [List.append_assoc] using hpid)

/-- Appending an id under a key keeps every listed id inside the extended
bound — no freshness or duplicate-freedom needed. -/
theorem nameMapAppend_ids (nm : List (String × List Nat)) (key : String)
    (pid : Nat) (seen : List Nat)
    (h : ∀ kp ∈ nm, ∀ x ∈ kp.2, x ∈ seen) :
    ∀ kp ∈ nameMapAppend nm key pid, ∀ x ∈ kp.2, x ∈ seen ++ [pid] := by
  intro kp hkp
  rcases hg : alGet nm key with _ | l
  · simp only [nameMapAppend, hg] at hkp
    rcases List.mem_append.mp hkp with h2 | h2
    · exact fun x hx => List.mem_append.mpr (Or.inl (h kp h2 x hx))
    · have he : kp = (key, [pid]) := by simpa using h2
      subst he
      intro x hx
      have he2 : x = pid := by simpa using hx
      subst he2
      exact List.mem_append.mpr (Or.inr (List.mem_singleton_self _))
  · simp only [nameMapAppend, hg] at hkp
    rcases mem_alSet _ _ _ _ hkp with h2 | h2
    · exact fun x hx => List.mem_append.mpr (Or.inl (h kp h2 x hx))
    · have hsub := h (key, l) (alGet_mem _ _ _ hg)
      subst h2
      intro x hx
      rcases List.mem_append.mp hx with hx2 | hx2
      · exact List.mem_append.mpr (Or.inl (hsub x hx2))
      · have he2 : x = pid := by simpa using hx2
        subst he2
        exact List.mem_append.mpr (Or.inr (List.mem_singleton_self _))

/-- The guarded append keeps every listed id inside the bound when the
appended id is already accounted for — no duplicate-freedom needed. -/
theorem nameMapAppendNew_ids (nm : List (String × List Nat)) (key : String)
    (pid : Nat) (seen : List Nat)
    (h : ∀ kp ∈ nm, ∀ x ∈ kp.2, x ∈ seen) (hpid : pid ∈ seen) :
    ∀ kp ∈ nameMapAppendNew nm key pid, ∀ x ∈ kp.2, x ∈ seen := by
  intro kp hkp
  rcases hg : alGet nm key with _ | l
  · simp only [nameMapAppendNew, hg] at hkp
    rcases List.mem_append.mp hkp with h2 | h2
    · exact h kp h2
    · have he : kp = (key, [pid]) := by simpa using h2
      subst he
      intro x hx
      have he2 : x = pid := by simpa using hx
      subst he2
      exact hpid
  · simp only [nameMapAppendNew, hg] at hkp
    by_cases hin : pid ∈ l
    · rw [if_pos hin] at hkp
      exact h kp hkp
    · rw [if_neg hin] at hkp
      rcases mem_alSet _ _ _ _ hkp with h2 | h2
      · exact h kp h2
      · have hsub := h (key, l) (alGet_mem _ _ _ hg)
        subst h2
        intro x hx
        rcases List.mem_append.mp hx with hx2 | hx2
        · exact hsub x hx2
        · have he2 : x = pid := by simpa using hx2
          subst he2
          exact hpid

/-- One indexing step keeps every listed id resolvable in the id map, with
no assumption on the element id: the id map is assigned in the same
iteration, before any duplicate could matter. -/
theorem indexElement_ids (tm pm : List (Nat × String)) (ix : Indices)
    (e : ElementData) (seen : List Nat)
    (h1 : ∀ kp ∈ ix.nameMap, ∀ x ∈ kp.2, x ∈ seen)
    (h2 : ∀ pid ∈ seen, (alGet ix.idMap pid).isSome = true) :
    (∀ kp ∈ (indexElement tm pm ix e).nameMap, ∀ x ∈ kp.2, x ∈ seen ++ [e.id])
  ∧ ∀ pid ∈ seen ++ [e.id], (alGet (indexElement tm pm ix e).idMap pid).isSome = true := by
  have hpid : e.id ∈ seen ++ [e.id] :=
    List.mem_append.mpr (Or.inr (List.mem_singleton_self _))
  have hm1 := nameMapAppend_ids ix.nameMap (normalize_name e.web_name) e.id seen h1
  have hm2 := nameMapAppendNew_ids
    (nameMapAppend ix.nameMap (normalize_name e.web_name) e.id)
    (normalize_name (e.first_name ++ " " ++ e.second_name)) e.id (seen ++ [e.id])
    hm1 hpid
  have hm3 := nameMapAppendNew_ids
    (nameMapAppendNew (nameMapAppend ix.nameMap (normalize_name e.web_name) e.id)
      (normalize_name (e.first_name ++ " " ++ e.second_name)) e.id)
    (normalize_name e.second_name) e.id (seen ++ [e.id]) hm2 hpid
  constructor
  · intro kp hkp
    simp only [indexElement] at hkp
    by_cases hc : e.first_name ≠ "" ∧ e.web_name ≠ e.second_name
    · rw [if_pos hc] at hkp
      exact nameMapAppendNew_ids _ (normalize_name (e.first_name ++ " " ++ e.web_name))
        e.id (seen ++ [e.id]) hm3 hpid kp hkp
    · rw [if_neg hc] at hkp
      exact hm3 kp hkp
  · intro pid hpidm
    simp only [indexElement]
    by_cases hEq : pid = e.id
    · subst hEq
      rw [alGet_alSet]
      rfl
    · rw [alGet_alSet_ne _ _ _ _ hEq]
      rcases List.mem_append.mp hpidm with hx | hx
      · exact h2 pid hx
      · exact absurd (by simpa using hx) hEq

/-- Folding the element loop keeps every listed id resolvable in the id
map, for arbitrary bootstrap data — duplicate ids included. -/
theorem build_fold_ids (tm pm : List (Nat × String)) (els : List ElementData)
    (ix : Indices) (seen : List Nat)
    (h1 : ∀ kp ∈ ix.nameMap, ∀ x ∈ kp.2, x ∈ seen)
    (h2 : ∀ pid ∈ seen, (alGet ix.idMap pid).isSome = true) :
    (∀ kp ∈ (els.foldl (indexElement tm pm) ix).nameMap, ∀ x ∈ kp.2,
        x ∈ seen ++ els.map (fun e => e.id))
  ∧ ∀ pid ∈ seen ++ els.map (fun e => e.id),
      (alGet (els.foldl (indexElement tm pm) ix).idMap pid).isSome = true := by
  induction els generalizing ix seen with
  | nil =>
    refine ⟨fun kp hkp x hx => by simpa using h1 kp hkp x hx,
      fun pid hpid => h2 pid (by simpa using hpid)⟩
  | cons e t ih =>
    obtain ⟨g1, g2⟩ := indexElement_ids tm pm ix e seen h1 h2
    obtain ⟨r1, r2⟩ := ih (indexElement tm pm ix e) (seen ++ [e.id]) g1 g2
    refine ⟨fun kp hkp x hx => ?_, fun pid hpid => ?_⟩
    · have hx2 := r1 kp hkp x hx
      simpa [List.append_assoc] using hx2
    · exact r2 pid (by simpa [List.append_assoc] using hpid)

/-- C10 as amended: whenever the bootstrap element ids are pairwise
distinct, every id list in the built name map is duplicate-free; and —
unconditionally, for arbitrary bootstrap data — every id in any list, hence
every player id in any resolver result over the built index, has an entry
in the id map, so the `player_id_map[player_id]` lookup of
`find_players_by_name` is always defined. Duplicate element ids break only
duplicate-freedom — see the counterexample. -/
theorem C10_index_invariants (bs : BootstrapData) :
    ((bs.elements.map (fun e => e.id)).Nodup →
      ∀ key l, alGet (build_player_indices bs).nameMap key = some l → l.Nodup)
  ∧ (∀ key l, alGet (build_player_indices bs).nameMap key = some l →
      ∀ pid ∈ l, (alGet (build_player_indices bs).idMap pid).isSome = true)
  ∧ ∀ ratio q fuzzy p,
      p ∈ resolveScores ratio (build_player_indices bs).nameMap q fuzzy →
      (alGet (build_player_indices bs).idMap p.1).isSome = true := by
  obtain ⟨g1, g2⟩ := build_fold_ids
    (bs.teams.foldl (fun m t => alSet m t.id t.name) [])
    (bs.element_types.foldl (fun m t => alSet m t.id t.singular_name_short) [])
    bs.elements (Indices.mk [] []) [] (by simp) (by simp)
  have hb : build_player_indices bs = bs.elements.foldl
      (indexElement
        (bs.teams.foldl (fun m t => alSet m t.id t.name) [])
        (bs.element_types.foldl (fun m t => alSet m t.id t.singular_name_short) []))
      (Indices.mk [] []) := rfl
  rw [hb]
  refine ⟨?_, ?_, ?_⟩
  · intro hnd key l hget
    obtain ⟨gg1, _⟩ := build_fold_inv
      (bs.teams.foldl (fun m t => alSet m t.id t.name) [])
      (bs.element_types.foldl (fun m t => alSet m t.id t.singular_name_short) [])
      bs.elements (Indices.mk [] []) [] hnd (by simp) (by simp) (by simp)
    exact (gg1 (key, l) (alGet_mem _ _ _ hget)).1
  · intro key l hget pid hpid
    exact g2 pid (g1 (key, l) (alGet_mem _ _ _ hget) pid hpid)
  · intro ratio q fuzzy p hp
    have hp2 : p ∈ preScores ratio
        (bs.elements.foldl (indexElement _ _) (Indices.mk [] [])).nameMap q fuzzy :=
      (sortDesc_perm _).mem_iff.mp hp
    rcases mem_tier_fuzzy _ _ _ _ _ _ hp2 with h2 | ⟨kp, hkp, hpidm, _, _⟩
    · rcases mem_tier_substring _ _ _ _ h2 with h1 | ⟨kp, hkp, hpidm, _⟩
      · obtain ⟨pids, hg, hpidm, _⟩ := mem_tier_exact _ _ _ h1
        exact g2 p.1 (g1 (normalize_name q, pids) (alGet_mem _ _ _ hg) p.1 hpidm)
      · exact g2 p.1 (g1 kp hkp p.1 hpidm)
    · exact g2 p.1 (g1 kp hkp p.1 hpidm)

/-- C10 counterexample: with duplicate element ids the unguarded web-name
append registers the same id twice under the key "a". -/
theorem C10_duplicate_ids_counterexample :
    alGet (build_player_indices bsDup).nameMap "a" = some [1, 1]
  ∧ ¬ ([1, 1] : List Nat).Nodup := by
  exact ⟨by with_unfolding_all rfl, by decide⟩

/-- Witness for C10's amended statement on the Salah bootstrap payload,
discharging the distinct-ids hypothesis of the duplicate-freedom half. -/
theorem C10_index_invariants_witness :
    (∀ key l, alGet (build_player_indices bsSalah).nameMap key = some l → l.Nodup)
  ∧ (∀ key l, alGet (build_player_indices bsSalah).nameMap key = some l →
      ∀ pid ∈ l, (alGet (build_player_indices bsSalah).idMap pid).isSome = true)
  ∧ ∀ ratio q fuzzy p,
      p ∈ resolveScores ratio (build_player_indices bsSalah).nameMap q fuzzy →
      (alGet (build_player_indices bsSalah).idMap p.1).isSome = true :=
  ⟨(C10_index_invariants bsSalah).1 (by decide),
   (C10_index_invariants bsSalah).2.1,
   (C10_index_invariants bsSalah).2.2⟩
